import Mathlib

/-!
# learn-go-with-tests: the `maps` package

A shallow embedding of `maps/dict.go`.

A Go `map[string]string` is a reference to a finite table, or the nil map.
The table is kept as an association list in which the first binding of a key
is the one that counts; the built-in operations below keep at most one binding
per key.  Methods that mutate the receiver return the table after the call.
A run-time panic is an `Except.error`.
-/

set_option autoImplicit false

namespace Maps

/-! ## Errors -/

/-- Go `type DictErr string`. -/
structure DictErr where
  msg : String
  deriving DecidableEq, Repr

/-- Go `ErrNotFound = DictErr("could not find the word you were looking for")`. -/
def ErrNotFound : DictErr := ⟨"could not find the word you were looking for"⟩

/-- Go `ErrWordExists = DictErr("cannot add word because it already exists")`. -/
def ErrWordExists : DictErr := ⟨"cannot add word because it already exists"⟩

/-- Go `ErrWordDoesNotExist = DictErr("cannot update word because it does not exist")`. -/
def ErrWordDoesNotExist : DictErr := ⟨"cannot update word because it does not exist"⟩

/-- Go `func (e DictErr) Error() string`. -/
def DictErr.Error (e : DictErr) : String := e.msg

/-- A value of the Go interface `error` as this package produces it:
`none` is `nil`, `some e` holds the `DictErr` `e`. -/
abbrev GoError := Option DictErr

/-- Run-time panics the package can raise. -/
inductive Panic
  /-- The Go runtime's "assignment to entry in nil map". -/
  | assignToNilMap
  deriving DecidableEq, Repr

deriving instance DecidableEq for Except

/-! ## The map type and Go's built-in map operations -/

/-- Go `type Dict map[string]string`. `Dict.nil` is the nil map (the zero value
of the type), `Dict.mk es` an allocated map holding the bindings `es`. -/
inductive Dict
  | nil
  | mk (entries : List (String × String))
  deriving DecidableEq, Repr

/-- The bindings of a map; the nil map has none. -/
def Dict.entries : Dict → List (String × String)
  | .nil => []
  | .mk es => es

/-- The keys of a map. -/
def Dict.keys (d : Dict) : List String := d.entries.map Prod.fst

/-- The first binding of `word` in an association list. -/
def lookup (word : String) : List (String × String) → Option String
  | [] => none
  | (k, v) :: es => if k = word then some v else lookup word es

/-- Go `v, ok := d[word]`: the stored value and `true`, or the zero value `""`
and `false` when `word` is not a key. Reading the nil map is allowed. -/
def Dict.index (d : Dict) (word : String) : String × Bool :=
  match lookup word d.entries with
  | some v => (v, true)
  | none => ("", false)

/-- Go `d[word] = define`: binds `word` to `define`, replacing an earlier
binding; panics on the nil map. -/
def Dict.assign (d : Dict) (word define : String) : Except Panic Dict :=
  match d with
  | .nil => .error .assignToNilMap
  | .mk es => .ok (.mk ((word, define) :: es.filter (fun e => e.1 ≠ word)))

/-- Go built-in `delete(d, word)`: removes the binding of `word` if there is
one; a no-op on the nil map and on a missing key. -/
def Dict.delete (d : Dict) (word : String) : Dict :=
  match d with
  | .nil => .nil
  | .mk es => .mk (es.filter (fun e => e.1 ≠ word))

/-! ## The methods of `Dict` -/

/-- Go `func (d Dict) Search(word string) (string, error)`; the result is the
receiver after the call, the returned definition and the returned error. -/
def Dict.Search (d : Dict) (word : String) : Dict × String × GoError :=
  let (define, ok) := d.index word
  if !ok then
    (d, "", some ErrNotFound)
  else
    (d, define, none)

/-- Go `func (d Dict) Add(word, define string) error`; the result pairs the
receiver after the call with the returned error. -/
def Dict.Add (d : Dict) (word define : String) : Except Panic (Dict × GoError) :=
  let (d, _, err) := d.Search word
  if err = some ErrNotFound then do
    let d1 ← d.assign word define
    pure (d1, none)
  else if err = none then
    pure (d, some ErrWordExists)
  else
    pure (d, err)

/-- Go `func (d Dict) Update(word, define string) error`; the result pairs the
receiver after the call with the returned error. -/
def Dict.Update (d : Dict) (word define : String) : Except Panic (Dict × GoError) :=
  let (d, _, err) := d.Search word
  if err = some ErrNotFound then
    pure (d, some ErrWordDoesNotExist)
  else if err = none then do
    let d1 ← d.assign word define
    pure (d1, none)
  else
    pure (d, err)

/-- Go `func (d Dict) Delete(word string)`; the result is the receiver after
the call. -/
def Dict.Delete (d : Dict) (word : String) : Dict :=
  d.delete word

/-! ## Sequences of calls -/

/-- One method call on a dictionary, with its arguments. -/
inductive Call
  | search (word : String)
  | add (word define : String)
  | update (word define : String)
  | delete (word : String)
  deriving DecidableEq, Repr

/-- What a call hands back to its caller; `panicked` when it does not return. -/
inductive Outcome
  | searched (define : String) (err : GoError)
  | added (err : GoError)
  | updated (err : GoError)
  | deleted
  | panicked (p : Panic)
  deriving DecidableEq, Repr

/-- Performs one call: the receiver afterwards and what the caller sees. A
call that panics leaves the receiver as it was. -/
def Dict.call (d : Dict) : Call → Dict × Outcome
  | .search w =>
    let (d1, define, err) := d.Search w
    (d1, .searched define err)
  | .add w define =>
    match d.Add w define with
    | .ok (d1, err) => (d1, .added err)
    | .error p => (d, .panicked p)
  | .update w define =>
    match d.Update w define with
    | .ok (d1, err) => (d1, .updated err)
    | .error p => (d, .panicked p)
  | .delete w => (d.Delete w, .deleted)

/-- Performs the calls in order on one receiver and stops at the first panic.
The result is the receiver at the end and the calls performed, each with its
outcome. -/
def Dict.run (d : Dict) : List Call → Dict × List (Call × Outcome)
  | [] => (d, [])
  | c :: cs =>
    match d.call c with
    | (d1, .panicked p) => (d1, [(c, .panicked p)])
    | (d1, o) =>
      let (d2, t) := d1.run cs
      (d2, (c, o) :: t)

/-- The trace holds a call `Add(w, _)` that returned no error and after which
no call `Delete(w)` was made. -/
def AddedNotDeleted (w : String) (t : List (Call × Outcome)) : Prop :=
  ∃ pre define post, t = pre ++ (Call.add w define, Outcome.added none) :: post ∧
    ∀ x ∈ post, x.1 ≠ Call.delete w

end Maps

/-!
# Go's `int`

Go's `int` is kept as a mathematical integer together with the reduction
`wrap` to the two's complement range of a 64-bit word, which every arithmetic
operation applies to its exact result.
-/

namespace GoInt

/-- Reduces an integer to the range of a 64-bit Go `int`, from `-2^63` up to
`2^63 - 1`, by two's complement wrap-around. -/
def wrap (x : Int) : Int := (x + 2 ^ 63) % 2 ^ 64 - 2 ^ 63

/-- Go `a + b` on `int`. -/
def add (a b : Int) : Int := wrap (a + b)

/-- Go `a - b` on `int`. -/
def sub (a b : Int) : Int := wrap (a - b)

/-- The integer is one a 64-bit Go `int` can hold. -/
def InRange (x : Int) : Prop := -2 ^ 63 ≤ x ∧ x < 2 ^ 63

instance (x : Int) : Decidable (InRange x) :=
  inferInstanceAs (Decidable (-2 ^ 63 ≤ x ∧ x < 2 ^ 63))

end GoInt

/-!
# The `pointer` package

A shallow embedding of `pointer/wallet.go`. The methods have a pointer
receiver and mutate the wallet; here they return the wallet after the call.
-/

namespace Pointer

/-- Go `type Bitcoin int`. -/
abbrev Bitcoin := Int

/-- Go `type Wallet struct { balance Bitcoin }`. -/
structure Wallet where
  balance : Bitcoin
  deriving DecidableEq, Repr

/-- A Go error made by `errors.New`, known by its message. -/
structure GoErr where
  msg : String
  deriving DecidableEq, Repr

/-- Go `var ErrInsfficientFunds = errors.New("cannot withdraw, insufficient funds")`. -/
def ErrInsfficientFunds : GoErr := ⟨"cannot withdraw, insufficient funds"⟩

/-- Go `func (w *Wallet) Deposit(amount Bitcoin)`; the result is the wallet
after the call. -/
def Wallet.Deposit (w : Wallet) (amount : Bitcoin) : Wallet :=
  { w with balance := GoInt.add w.balance amount }

/-- Go `func (w *Wallet) Balance() Bitcoin`. -/
def Wallet.Balance (w : Wallet) : Bitcoin :=
  w.balance

/-- Go `func (w *Wallet) Withdraw(amount Bitcoin) error`; the result pairs the
wallet after the call with the returned error (`none` is `nil`). -/
def Wallet.Withdraw (w : Wallet) (amount : Bitcoin) : Wallet × Option GoErr :=
  if amount > w.balance then
    (w, some ErrInsfficientFunds)
  else
    ({ w with balance := GoInt.sub w.balance amount }, none)

/-- One mutating call on a wallet, with its amount. -/
inductive Op
  | deposit (amount : Bitcoin)
  | withdraw (amount : Bitcoin)
  deriving DecidableEq, Repr

/-- The amount passed to the call. -/
def Op.amount : Op → Bitcoin
  | .deposit a => a
  | .withdraw a => a

/-- The wallet after one call. -/
def Wallet.apply (w : Wallet) : Op → Wallet
  | .deposit a => w.Deposit a
  | .withdraw a => (w.Withdraw a).1

/-- The wallet after each call of a sequence made on `w`, in order. -/
def Wallet.history (w : Wallet) : List Op → List Wallet
  | [] => []
  | op :: ops => w.apply op :: (w.apply op).history ops

/-- No `Deposit` of the sequence, made on `w`, overflows: the exact sum of the
balance and the amount is one the machine integer can hold. -/
def NoDepositOverflow (w : Wallet) : List Op → Prop
  | [] => True
  | .deposit a :: ops => GoInt.InRange (w.balance + a) ∧ NoDepositOverflow (w.Deposit a) ops
  | .withdraw a :: ops => NoDepositOverflow (w.Withdraw a).1 ops

/-- The predicate `NoDepositOverflow` can be computed. -/
def decNoDepositOverflow : (ops : List Op) → (w : Wallet) → Decidable (NoDepositOverflow w ops)
  | [], _ => isTrue trivial
  | .deposit a :: ops, w =>
    have := decNoDepositOverflow ops (w.Deposit a)
    inferInstanceAs
      (Decidable (GoInt.InRange (w.balance + a) ∧ NoDepositOverflow (w.Deposit a) ops))
  | .withdraw a :: ops, w => decNoDepositOverflow ops (w.Withdraw a).1

instance (w : Wallet) (ops : List Op) : Decidable (NoDepositOverflow w ops) :=
  decNoDepositOverflow ops w

end Pointer

/-!
# The `arrslice` package

A shallow embedding of `arrslice/sum.go`. A slice is the list of its elements;
a `for ... range` loop is a left fold over it.
-/

namespace Arrslice

/-- Run-time panics of slice expressions. -/
inductive Panic
  /-- The Go runtime's "slice bounds out of range". -/
  | sliceBoundsOutOfRange
  deriving DecidableEq, Repr

/-- Go `func Sum(numbers []int) int`. -/
def Sum (numbers : List Int) : Int :=
  numbers.foldl (fun sum number => GoInt.add sum number) 0

/-- Go `func SumAll(numbersTosum ...[]int) []int`. -/
def SumAll (numbersTosum : List (List Int)) : List Int :=
  numbersTosum.foldl (fun sums numbers => sums ++ [Sum numbers]) []

/-- Go slice expression `numbers[low:]`: panics unless `low ≤ len(numbers)`. -/
def sliceFrom (numbers : List Int) (low : Nat) : Except Panic (List Int) :=
  if low ≤ numbers.length then .ok (numbers.drop low) else .error .sliceBoundsOutOfRange

/-- The body of the loop of `SumAllTails`, run on `sums` for one `numbers`. -/
def SumAllTails.body (sums : List Int) (numbers : List Int) : Except Panic (List Int) :=
  if numbers.length = 0 then
    pure (sums ++ [0])
  else do
    let tail ← sliceFrom numbers 1
    pure (sums ++ [Sum tail])

/-- Go `func SumAllTails(numbersTosum ...[]int) []int`. -/
def SumAllTails (numbersTosum : List (List Int)) : Except Panic (List Int) :=
  numbersTosum.foldlM SumAllTails.body []

/-- The sum of all elements of a slice except the first, and 0 for the empty
slice. -/
def tailEntry : List Int → Int
  | [] => 0
  | _ :: tail => Sum tail

end Arrslice

namespace Maps

/-! ## Facts about the built-in operations -/

theorem lookup_eq_none_iff (w : String) (es : List (String × String)) :
    lookup w es = none ↔ w ∉ es.map Prod.fst := by
  induction es with
  | nil => simp [lookup]
  | cons e es ih =>
    obtain ⟨k, v⟩ := e
    by_cases h : k = w
    · simp [lookup, h]
    · have h2 : ¬ w = k := fun h3 => h h3.symm
      simp [lookup, h, h2, ih]

theorem lookup_mem (w v : String) (es : List (String × String))
    (h : lookup w es = some v) : (w, v) ∈ es := by
  induction es with
  | nil => simp [lookup] at h
  | cons e es ih =>
    obtain ⟨k, u⟩ := e
    by_cases hk : k = w
    · simp [lookup, hk] at h
      simp [hk, h]
    · simp [lookup, hk] at h
      exact List.mem_cons_of_mem _ (ih h)

theorem filter_ne_of_not_mem (w : String) (es : List (String × String))
    (h : w ∉ es.map Prod.fst) : es.filter (fun e => e.1 ≠ w) = es := by
  rw [List.filter_eq_self]
  intro e he
  have : e.1 ≠ w := fun h2 => h (h2 ▸ List.mem_map_of_mem Prod.fst he)
  simpa using this

theorem not_mem_filter_ne (w : String) (es : List (String × String)) :
    w ∉ (es.filter (fun e => e.1 ≠ w)).map Prod.fst := by
  simp [List.mem_filter]

theorem Search_of_not_mem (d : Dict) (w : String) (h : w ∉ d.keys) :
    d.Search w = (d, "", some ErrNotFound) := by
  have h1 : lookup w d.entries = none := (lookup_eq_none_iff w d.entries).2 h
  simp [Dict.Search, Dict.index, h1]

theorem Search_of_lookup (d : Dict) (w v : String) (h : lookup w d.entries = some v) :
    d.Search w = (d, v, none) := by
  simp [Dict.Search, Dict.index, h]

theorem lookup_of_mem (d : Dict) (w : String) (h : w ∈ d.keys) :
    ∃ v, lookup w d.entries = some v := by
  cases hl : lookup w d.entries with
  | none => exact absurd h ((lookup_eq_none_iff w d.entries).1 hl)
  | some v => exact ⟨v, rfl⟩

theorem Add_of_not_mem (es : List (String × String)) (w define : String)
    (h : w ∉ (Dict.mk es).keys) :
    (Dict.mk es).Add w define = .ok (.mk ((w, define) :: es), none) := by
  have h1 := Search_of_not_mem (.mk es) w h
  have h2 := filter_ne_of_not_mem w es h
  simp only [ne_eq, decide_not] at h2
  simp [Dict.Add, h1, Dict.assign, h2, bind, Except.bind, pure, Except.pure]

theorem Add_of_mem (d : Dict) (w define : String) (h : w ∈ d.keys) :
    d.Add w define = .ok (d, some ErrWordExists) := by
  obtain ⟨v, hv⟩ := lookup_of_mem d w h
  simp [Dict.Add, Search_of_lookup d w v hv, pure, Except.pure]

theorem Add_nil (w define : String) :
    Dict.nil.Add w define = .error .assignToNilMap := by
  have h1 := Search_of_not_mem .nil w (by simp [Dict.keys, Dict.entries])
  simp [Dict.Add, h1, Dict.assign, bind, Except.bind]

theorem Update_of_not_mem (d : Dict) (w define : String) (h : w ∉ d.keys) :
    d.Update w define = .ok (d, some ErrWordDoesNotExist) := by
  simp [Dict.Update, Search_of_not_mem d w h, pure, Except.pure]

theorem Update_of_mem (d : Dict) (w define : String) (h : w ∈ d.keys) :
    d.Update w define =
      .ok (.mk ((w, define) :: d.entries.filter (fun e => e.1 ≠ w)), none) := by
  obtain ⟨v, hv⟩ := lookup_of_mem d w h
  cases d with
  | nil => simp [Dict.keys, Dict.entries] at h
  | mk es =>
    simp [Dict.Update, Search_of_lookup (.mk es) w v hv, Dict.assign, Dict.entries,
      bind, Except.bind, pure, Except.pure]

theorem Search_assigned (es : List (String × String)) (w define : String) :
    (Dict.mk ((w, define) :: es)).Search w = (.mk ((w, define) :: es), define, none) :=
  Search_of_lookup _ w define (by simp [Dict.entries, lookup])

/-! ## Facts about sequences of calls -/

theorem addedNotDeleted_nil (w : String) : ¬ AddedNotDeleted w [] := by
  rintro ⟨pre, define, post, h, _⟩
  cases pre <;> simp at h

theorem addedNotDeleted_cons (w : String) (c : Call) (o : Outcome)
    (t : List (Call × Outcome)) :
    AddedNotDeleted w ((c, o) :: t) ↔
      (((∃ define, c = Call.add w define) ∧ o = Outcome.added none) ∧
        ∀ y ∈ t, y.1 ≠ Call.delete w) ∨
      AddedNotDeleted w t := by
  constructor
  · rintro ⟨pre, define, post, h, hp⟩
    cases pre with
    | nil =>
      simp only [List.nil_append, List.cons.injEq, Prod.mk.injEq] at h
      left
      exact ⟨⟨⟨define, h.1.1⟩, h.1.2⟩, h.2 ▸ hp⟩
    | cons p pre =>
      simp only [List.cons_append, List.cons.injEq] at h
      right
      exact ⟨pre, define, post, h.2, hp⟩
  · rintro (⟨⟨⟨define, hc⟩, ho⟩, hp⟩ | ⟨pre, define, post, h, hp⟩)
    · exact ⟨[], define, t, by simp [hc, ho], hp⟩
    · exact ⟨(c, o) :: pre, define, post, by simp [h], hp⟩

theorem run_cons_panicked (d d1 : Dict) (c : Call) (cs : List Call) (p : Panic)
    (h : d.call c = (d1, Outcome.panicked p)) :
    d.run (c :: cs) = (d1, [(c, Outcome.panicked p)]) := by
  simp only [Dict.run, h]

theorem run_cons_returned (d d1 : Dict) (c : Call) (o : Outcome) (cs : List Call)
    (h : d.call c = (d1, o)) (ho : ∀ p, o ≠ Outcome.panicked p) :
    d.run (c :: cs) = ((d1.run cs).1, (c, o) :: (d1.run cs).2) := by
  cases o with
  | panicked p => exact absurd rfl (ho p)
  | _ => simp only [Dict.run, h]

theorem mem_keys_call (d : Dict) (c : Call) (w : String) :
    w ∈ (d.call c).1.keys ↔
      ((∃ define, c = Call.add w define) ∧ (d.call c).2 = Outcome.added none) ∨
      (w ∈ d.keys ∧ c ≠ Call.delete w) := by
  cases c with
  | search u =>
    by_cases hu : u ∈ d.keys
    · obtain ⟨v, hv⟩ := lookup_of_mem d u hu
      simp [Dict.call, Search_of_lookup d u v hv]
    · simp [Dict.call, Search_of_not_mem d u hu]
  | add u define =>
    by_cases hu : u ∈ d.keys
    · simp [Dict.call, Add_of_mem d u define hu]
    · cases d with
      | nil => simp [Dict.call, Add_nil, Dict.keys, Dict.entries]
      | mk es =>
        simp only [Dict.call, Add_of_not_mem es u define hu]
        by_cases hw : w = u
        · subst hw
          simp [Dict.keys, Dict.entries]
        · have hw2 : ¬ u = w := fun h => hw h.symm
          simp [Dict.keys, Dict.entries, hw, hw2]
  | update u define =>
    by_cases hu : u ∈ d.keys
    · simp only [Dict.call, Update_of_mem d u define hu]
      by_cases hw : w = u
      · subst hw
        simp [Dict.keys, Dict.entries] at hu ⊢
        exact hu
      · simp [Dict.keys, Dict.entries, hw, List.mem_filter]
    · simp [Dict.call, Update_of_not_mem d u define hu]
  | delete u =>
    have hw : (w = u) ↔ (u = w) := eq_comm
    cases d with
    | nil => simp [Dict.call, Dict.Delete, Dict.delete, Dict.keys, Dict.entries]
    | mk es =>
      simp [Dict.call, Dict.Delete, Dict.delete, Dict.keys, Dict.entries, List.mem_filter, hw]

theorem mem_keys_run (w : String) (cs : List Call) : ∀ d : Dict,
    w ∈ (d.run cs).1.keys ↔
      AddedNotDeleted w (d.run cs).2 ∨
      (w ∈ d.keys ∧ ∀ x ∈ (d.run cs).2, x.1 ≠ Call.delete w) := by
  induction cs with
  | nil =>
    intro d
    simp [Dict.run, addedNotDeleted_nil]
  | cons c cs ih =>
    intro d
    have hc := mem_keys_call d c w
    cases hdc : d.call c with
    | mk d1 o =>
      rw [hdc] at hc
      simp only at hc
      by_cases ho : ∃ p, o = Outcome.panicked p
      · obtain ⟨p, rfl⟩ := ho
        rw [run_cons_panicked d d1 c cs p hdc]
        simp only [addedNotDeleted_cons, addedNotDeleted_nil, List.mem_singleton, forall_eq,
          List.not_mem_nil, false_imp_iff, implies_true, and_true, or_false]
        rw [hc]
      · have ho2 : ∀ p, o ≠ Outcome.panicked p := fun p hp => ho ⟨p, hp⟩
        rw [run_cons_returned d d1 c o cs hdc ho2]
        simp only [addedNotDeleted_cons, List.forall_mem_cons]
        rw [ih d1, hc]
        tauto

theorem call_allocated (es : List (String × String)) (c : Call) :
    (∃ es1, ((Dict.mk es).call c).1 = Dict.mk es1) ∧
      ∀ p, ((Dict.mk es).call c).2 ≠ Outcome.panicked p := by
  cases c with
  | search u =>
    by_cases hu : u ∈ (Dict.mk es).keys
    · obtain ⟨v, hv⟩ := lookup_of_mem _ u hu
      simp [Dict.call, Search_of_lookup _ u v hv]
    · simp [Dict.call, Search_of_not_mem _ u hu]
  | add u define =>
    by_cases hu : u ∈ (Dict.mk es).keys
    · simp [Dict.call, Add_of_mem _ u define hu]
    · simp [Dict.call, Add_of_not_mem es u define hu]
  | update u define =>
    by_cases hu : u ∈ (Dict.mk es).keys
    · simp [Dict.call, Update_of_mem _ u define hu]
    · simp [Dict.call, Update_of_not_mem _ u define hu]
  | delete u => simp [Dict.call, Dict.Delete, Dict.delete]

theorem run_allocated (cs : List Call) : ∀ es : List (String × String),
    ((Dict.mk es).run cs).2.map Prod.fst = cs ∧
      ∀ x ∈ ((Dict.mk es).run cs).2, ∀ p, x.2 ≠ Outcome.panicked p := by
  induction cs with
  | nil =>
    intro es
    simp [Dict.run]
  | cons c cs ih =>
    intro es
    obtain ⟨⟨es1, he⟩, ho⟩ := call_allocated es c
    cases hc : (Dict.mk es).call c with
    | mk d1 o =>
      rw [hc] at he ho
      simp only at he ho
      subst he
      rw [run_cons_returned _ _ c o cs hc ho]
      obtain ⟨h1, h2⟩ := ih es1
      refine ⟨by simp [h1], ?_⟩
      intro x hx
      rcases List.mem_cons.1 hx with hx | hx
      · subst hx
        exact ho
      · exact h2 x hx

theorem Add_ne_not_found (d d1 : Dict) (w define : String) (err : GoError)
    (h : d.Add w define = .ok (d1, err)) : err ≠ some ErrNotFound := by
  by_cases hw : w ∈ d.keys
  · rw [Add_of_mem d w define hw] at h
    simp only [Except.ok.injEq, Prod.mk.injEq] at h
    rw [← h.2]
    decide
  · cases d with
    | nil =>
      rw [Add_nil] at h
      exact Except.noConfusion h
    | mk es =>
      rw [Add_of_not_mem es w define hw] at h
      simp only [Except.ok.injEq, Prod.mk.injEq] at h
      rw [← h.2]
      decide

theorem Update_ne_not_found (d d1 : Dict) (w define : String) (err : GoError)
    (h : d.Update w define = .ok (d1, err)) : err ≠ some ErrNotFound := by
  by_cases hw : w ∈ d.keys
  · rw [Update_of_mem d w define hw] at h
    simp only [Except.ok.injEq, Prod.mk.injEq] at h
    rw [← h.2]
    decide
  · rw [Update_of_not_mem d w define hw] at h
    simp only [Except.ok.injEq, Prod.mk.injEq] at h
    rw [← h.2]
    decide

theorem lookup_filter_ne (w u : String) (es : List (String × String)) (h : u ≠ w) :
    lookup u (es.filter (fun e => e.1 ≠ w)) = lookup u es := by
  induction es with
  | nil => rfl
  | cons e es ih =>
    obtain ⟨k, v⟩ := e
    by_cases hk : k = w
    · have hwu : ¬ w = u := fun h2 => h h2.symm
      subst hk
      simp only [ne_eq, decide_not] at ih
      simp [List.filter_cons, lookup, hwu, ih]
    · simp only [ne_eq, decide_not] at ih
      simp only [ne_eq, decide_not, List.filter_cons, hk, decide_False, Bool.not_false,
        ↓reduceIte, lookup, ih]

theorem Search_congr (d1 d2 : Dict) (w : String)
    (h : lookup w d1.entries = lookup w d2.entries) :
    (d1.Search w).2 = (d2.Search w).2 := by
  simp only [Dict.Search, Dict.index, h]
  cases lookup w d2.entries <;> simp

theorem lookup_call_other (d : Dict) (c : Call) (w u define : String) (h : u ≠ w)
    (hc : c = Call.add w define ∨ c = Call.update w define ∨ c = Call.delete w) :
    lookup u (d.call c).1.entries = lookup u d.entries := by
  have hwu : ¬ w = u := fun h2 => h h2.symm
  rcases hc with hc | hc | hc <;> subst hc
  · by_cases hw : w ∈ d.keys
    · simp [Dict.call, Add_of_mem d w define hw]
    · cases d with
      | nil => simp [Dict.call, Add_nil]
      | mk es => simp [Dict.call, Add_of_not_mem es w define hw, Dict.entries, lookup, hwu]
  · by_cases hw : w ∈ d.keys
    · have h2 := lookup_filter_ne w u d.entries h
      simp only [ne_eq, decide_not] at h2
      simp only [Dict.call, Update_of_mem d w define hw]
      simp [Dict.entries.eq_2, lookup, hwu, h2]
    · simp [Dict.call, Update_of_not_mem d w define hw]
  · cases d with
    | nil => rfl
    | mk es => exact lookup_filter_ne w u es h

theorem Delete_assigned (es : List (String × String)) (w define : String)
    (h : w ∉ (Dict.mk es).keys) : (Dict.mk ((w, define) :: es)).Delete w = Dict.mk es := by
  have h2 := filter_ne_of_not_mem w es h
  simp only [ne_eq, decide_not] at h2
  simp [Dict.Delete, Dict.delete, List.filter_cons, h2]

/-! ## The contract of `Search`, `Add`, `Update` and `Delete` -/

/-- C1: for every dictionary `d` (the nil map included) and every word `w`
that is not a key of `d`, `Search(w)` returns the empty string together with
`ErrNotFound`. -/
theorem search_absent_not_found (d : Dict) (w : String) (h : w ∉ d.keys) :
    d.Search w = (d, "", some ErrNotFound) :=
  Search_of_not_mem d w h

theorem search_absent_not_found_witness :
    "unknown" ∉ (Dict.mk [("test", "this is just a test")]).keys ∧
    (Dict.mk [("test", "this is just a test")]).Search "unknown"
      = (Dict.mk [("test", "this is just a test")], "", some ErrNotFound) :=
  ⟨by decide, search_absent_not_found (Dict.mk [("test", "this is just a test")]) "unknown"
    (by decide)⟩

/-- C2: for every dictionary `d` and every word `w` that is a key of `d`,
`Search(w)` returns the definition `v` that `d` stores for `w` and a nil
error, and the receiver after the call is `d` itself. -/
theorem search_present_returns_definition (d : Dict) (w : String) (h : w ∈ d.keys) :
    ∃ v, lookup w d.entries = some v ∧ (w, v) ∈ d.entries ∧
      d.Search w = (d, v, none) := by
  obtain ⟨v, hv⟩ := lookup_of_mem d w h
  exact ⟨v, hv, lookup_mem w v d.entries hv, Search_of_lookup d w v hv⟩

theorem search_present_returns_definition_witness :
    "test" ∈ (Dict.mk [("test", "this is just a test")]).keys ∧
    ∃ v, lookup "test" (Dict.mk [("test", "this is just a test")]).entries = some v ∧
      ("test", v) ∈ (Dict.mk [("test", "this is just a test")]).entries ∧
      (Dict.mk [("test", "this is just a test")]).Search "test"
        = (Dict.mk [("test", "this is just a test")], v, none) :=
  ⟨by decide, search_present_returns_definition
    (Dict.mk [("test", "this is just a test")]) "test" (by decide)⟩

/-- C3 as stated fails: the nil map has no key "test", yet `Add` on it does
not return no error; it does not return at all, because the assignment
`d[word] = define` panics on the nil map. -/
theorem add_absent_fails_on_nil_map :
    "test" ∉ Dict.nil.keys ∧
    Dict.nil.Add "test" "this is just a test" = .error Panic.assignToNilMap ∧
    ¬ ∃ d1, Dict.nil.Add "test" "this is just a test" = .ok (d1, none) := by
  refine ⟨by decide, by decide, ?_⟩
  rintro ⟨d1, h1⟩
  rw [Add_nil] at h1
  exact Except.noConfusion h1

/-- C3 amended: for every allocated (non-nil) dictionary `d`, word `w` not a
key of `d` and definition `define`, `Add(w, define)` returns no error and a
following `Search(w)` returns `define` with no error; and for every
dictionary, whenever `Add(w, define)` returns no error, `Search(w)` afterwards
returns `define` with no error. -/
theorem add_then_search (d : Dict) (w define : String) :
    (d ≠ Dict.nil → w ∉ d.keys →
      ∃ d1, d.Add w define = .ok (d1, none) ∧ d1.Search w = (d1, define, none)) ∧
    (∀ d1, d.Add w define = .ok (d1, none) → d1.Search w = (d1, define, none)) := by
  constructor
  · intro hd h
    cases d with
    | nil => exact absurd rfl hd
    | mk es => exact ⟨_, Add_of_not_mem es w define h, Search_assigned es w define⟩
  · intro d1 h1
    by_cases h : w ∈ d.keys
    · rw [Add_of_mem d w define h] at h1
      simp at h1
    · cases d with
      | nil =>
        rw [Add_nil] at h1
        exact Except.noConfusion h1
      | mk es =>
        rw [Add_of_not_mem es w define h] at h1
        simp at h1
        subst h1
        exact Search_assigned es w define

theorem add_then_search_witness :
    (∃ d1, (Dict.mk []).Add "test" "this is just a test" = .ok (d1, none) ∧
      d1.Search "test" = (d1, "this is just a test", none)) ∧
    (Dict.mk [("test", "this is just a test")]).Search "test"
      = (Dict.mk [("test", "this is just a test")], "this is just a test", none) :=
  ⟨(add_then_search (Dict.mk []) "test" "this is just a test").1 (by decide) (by decide),
   (add_then_search (Dict.mk []) "test" "this is just a test").2
     (Dict.mk [("test", "this is just a test")]) (by decide)⟩

/-- C4: for every dictionary `d`, word `w` that is already a key of `d` and
definition `define`, `Add(w, define)` returns `ErrWordExists` and the
dictionary after the call is `d`: the definition stored for `w` and every
other binding are as before. -/
theorem add_existing_word_exists (d : Dict) (w define : String) (h : w ∈ d.keys) :
    d.Add w define = .ok (d, some ErrWordExists) ∧
    ∀ d1 err, d.Add w define = .ok (d1, err) →
      d1 = d ∧ lookup w d1.entries = lookup w d.entries := by
  refine ⟨Add_of_mem d w define h, ?_⟩
  intro d1 err h1
  rw [Add_of_mem d w define h] at h1
  simp at h1
  simp [← h1.1]

theorem add_existing_word_exists_witness :
    "test" ∈ (Dict.mk [("test", "this is just a test")]).keys ∧
    (Dict.mk [("test", "this is just a test")]).Add "test" "new test"
      = .ok (Dict.mk [("test", "this is just a test")], some ErrWordExists) :=
  ⟨by decide, (add_existing_word_exists (Dict.mk [("test", "this is just a test")])
    "test" "new test" (by decide)).1⟩

/-- C5: for every dictionary `d`, word `w` that is a key of `d` and definition
`define`, `Update(w, define)` returns no error, afterwards `define` is the
only definition bound to `w`, and a following `Search(w)` returns `define`
with no error. -/
theorem update_existing_overwrites (d : Dict) (w define : String) (h : w ∈ d.keys) :
    ∃ d1, d.Update w define = .ok (d1, none) ∧
      (∀ v, (w, v) ∈ d1.entries → v = define) ∧
      d1.Search w = (d1, define, none) := by
  refine ⟨_, Update_of_mem d w define h, ?_, Search_assigned _ w define⟩
  intro v hv
  simp only [Dict.entries, List.mem_cons, Prod.mk.injEq, true_and] at hv
  rcases hv with hv | hv
  · exact hv
  · exact absurd (List.mem_map_of_mem Prod.fst hv) (not_mem_filter_ne w d.entries)

theorem update_existing_overwrites_witness :
    "test" ∈ (Dict.mk [("test", "this is just a test")]).keys ∧
    ∃ d1, (Dict.mk [("test", "this is just a test")]).Update "test" "new define"
        = .ok (d1, none) ∧
      (∀ v, ("test", v) ∈ d1.entries → v = "new define") ∧
      d1.Search "test" = (d1, "new define", none) :=
  ⟨by decide, update_existing_overwrites (Dict.mk [("test", "this is just a test")])
    "test" "new define" (by decide)⟩

/-- C6: for every dictionary `d`, word `w` that is not a key of `d` and
definition `define`, `Update(w, define)` returns `ErrWordDoesNotExist`, the
dictionary after the call is `d` (so `w` is still not a key), and `Search(w)`
on it returns `ErrNotFound`. -/
theorem update_absent_does_not_exist (d : Dict) (w define : String) (h : w ∉ d.keys) :
    d.Update w define = .ok (d, some ErrWordDoesNotExist) ∧
    ∀ d1 err, d.Update w define = .ok (d1, err) →
      d1 = d ∧ w ∉ d1.keys ∧ d1.Search w = (d1, "", some ErrNotFound) := by
  refine ⟨Update_of_not_mem d w define h, ?_⟩
  intro d1 err h1
  rw [Update_of_not_mem d w define h] at h1
  simp at h1
  rw [← h1.1]
  exact ⟨rfl, h, Search_of_not_mem d w h⟩

theorem update_absent_does_not_exist_witness :
    "test" ∉ (Dict.mk []).keys ∧
    (Dict.mk []).Update "test" "this is just a test"
      = .ok (Dict.mk [], some ErrWordDoesNotExist) :=
  ⟨by decide, (update_absent_does_not_exist (Dict.mk []) "test" "this is just a test"
    (by decide)).1⟩

/-- C7: for every dictionary `d` and every word `w` that is a key of `d`,
after `Delete(w)` the word is no longer a key and `Search(w)` returns
`ErrNotFound`. -/
theorem delete_present_then_search (d : Dict) (w : String) (_h : w ∈ d.keys) :
    w ∉ (d.Delete w).keys ∧
    (d.Delete w).Search w = (d.Delete w, "", some ErrNotFound) := by
  have hk : w ∉ (d.Delete w).keys := by
    cases d with
    | nil => simp [Dict.Delete, Dict.delete, Dict.keys, Dict.entries]
    | mk es => exact not_mem_filter_ne w es
  exact ⟨hk, Search_of_not_mem _ w hk⟩

theorem delete_present_then_search_witness :
    "test" ∈ (Dict.mk [("test", "test define")]).keys ∧
    "test" ∉ ((Dict.mk [("test", "test define")]).Delete "test").keys ∧
    ((Dict.mk [("test", "test define")]).Delete "test").Search "test"
      = ((Dict.mk [("test", "test define")]).Delete "test", "", some ErrNotFound) :=
  ⟨by decide, delete_present_then_search (Dict.mk [("test", "test define")]) "test"
    (by decide)⟩

/-- C8: for every dictionary `d` and every word `w` that is not a key of `d`,
`Delete(w)` is a silent no-op: the call returns normally with nothing to
report (it has no error result and does not panic) and the dictionary after
it equals `d`. -/
theorem delete_absent_noop (d : Dict) (w : String) (h : w ∉ d.keys) :
    d.Delete w = d ∧ d.call (Call.delete w) = (d, Outcome.deleted) := by
  have hd : d.Delete w = d := by
    cases d with
    | nil => rfl
    | mk es =>
      have h2 := filter_ne_of_not_mem w es h
      simp only [Dict.Delete, Dict.delete, h2]
  exact ⟨hd, by simp [Dict.call, hd]⟩

theorem delete_absent_noop_witness :
    "unknown" ∉ (Dict.mk [("test", "test define")]).keys ∧
    (Dict.mk [("test", "test define")]).Delete "unknown"
      = Dict.mk [("test", "test define")] ∧
    (Dict.mk [("test", "test define")]).call (Call.delete "unknown")
      = (Dict.mk [("test", "test define")], Outcome.deleted) :=
  ⟨by decide, delete_absent_noop (Dict.mk [("test", "test define")]) "unknown" (by decide)⟩

/-- C9: for every finite sequence `cs` of `Search`, `Add`, `Update` and
`Delete` calls made on an initially empty dictionary and every word `w`: every
call returns, and `w` is a key of the resulting dictionary if and only if the
sequence holds an `Add(w, _)` that returned no error and has no `Delete(w)`
after it. The equivalence also holds when the empty dictionary is the nil map,
where the run stops at the first call that panics. -/
theorem key_iff_added_not_deleted (cs : List Call) (w : String) :
    (((Dict.mk []).run cs).2.map Prod.fst = cs ∧
      (∀ x ∈ ((Dict.mk []).run cs).2, ∀ p, x.2 ≠ Outcome.panicked p) ∧
      (w ∈ ((Dict.mk []).run cs).1.keys ↔ AddedNotDeleted w ((Dict.mk []).run cs).2)) ∧
    (w ∈ (Dict.nil.run cs).1.keys ↔ AddedNotDeleted w (Dict.nil.run cs).2) := by
  refine ⟨⟨(run_allocated cs []).1, (run_allocated cs []).2, ?_⟩, ?_⟩
  · rw [mem_keys_run w cs (Dict.mk [])]
    simp [Dict.keys, Dict.entries]
  · rw [mem_keys_run w cs Dict.nil]
    simp [Dict.keys, Dict.entries]

/-- C10 as stated fails: on the empty dictionary, where "test" is not a key,
`Add` returns no error and `Update` returns `ErrWordDoesNotExist`; neither
returns `ErrNotFound`. -/
theorem add_update_absent_not_not_found :
    "test" ∉ (Dict.mk []).keys ∧
    (Dict.mk []).Add "test" "this is just a test"
      = .ok (Dict.mk [("test", "this is just a test")], none) ∧
    (Dict.mk []).Update "test" "this is just a test"
      = .ok (Dict.mk [], some ErrWordDoesNotExist) ∧
    (none : GoError) ≠ some ErrNotFound ∧
    some ErrWordDoesNotExist ≠ some ErrNotFound := by
  decide

/-- C10 amended: when the word is absent, `ErrNotFound` is returned by
`Search` only. `Add` and `Update` consume it in their existence check: for
every dictionary `d` and word `w` not a key of `d`, `Update(w, define)`
returns `ErrWordDoesNotExist` and `Add(w, define)`, on an allocated
dictionary, returns no error; and no call of `Add` or `Update` on any
dictionary returns `ErrNotFound`. -/
theorem not_found_only_from_search (d : Dict) (w define : String) :
    (w ∉ d.keys →
      (d.Search w).2.2 = some ErrNotFound ∧
      d.Update w define = .ok (d, some ErrWordDoesNotExist) ∧
      (d ≠ Dict.nil → ∃ d1, d.Add w define = .ok (d1, none))) ∧
    (∀ d1 err, d.Add w define = .ok (d1, err) → err ≠ some ErrNotFound) ∧
    (∀ d1 err, d.Update w define = .ok (d1, err) → err ≠ some ErrNotFound) := by
  refine ⟨?_, fun d1 err h => Add_ne_not_found d d1 w define err h,
    fun d1 err h => Update_ne_not_found d d1 w define err h⟩
  intro hw
  refine ⟨by rw [Search_of_not_mem d w hw], Update_of_not_mem d w define hw, ?_⟩
  intro hd
  cases d with
  | nil => exact absurd rfl hd
  | mk es => exact ⟨_, Add_of_not_mem es w define hw⟩

theorem not_found_only_from_search_witness :
    ((Dict.mk []).Search "test").2.2 = some ErrNotFound ∧
    (Dict.mk []).Update "test" "this is just a test"
      = .ok (Dict.mk [], some ErrWordDoesNotExist) ∧
    (∃ d1, (Dict.mk []).Add "test" "this is just a test" = .ok (d1, none)) ∧
    (none : GoError) ≠ some ErrNotFound ∧
    some ErrWordDoesNotExist ≠ some ErrNotFound :=
  have h := not_found_only_from_search (Dict.mk []) "test" "this is just a test"
  have h1 := h.1 (by decide)
  ⟨h1.1, h1.2.1, h1.2.2 (by decide),
   h.2.1 (Dict.mk [("test", "this is just a test")]) none (by decide),
   h.2.2 (Dict.mk []) (some ErrWordDoesNotExist) (by decide)⟩

/-- C11: the three dictionary errors `ErrNotFound`, `ErrWordExists` and
`ErrWordDoesNotExist` are pairwise distinct, as `DictErr` values, as `error`
values and by their messages, and each of them differs from the nil error. -/
theorem dict_errors_distinct :
    (ErrNotFound ≠ ErrWordExists ∧ ErrNotFound ≠ ErrWordDoesNotExist ∧
      ErrWordExists ≠ ErrWordDoesNotExist) ∧
    ((some ErrNotFound : GoError) ≠ some ErrWordExists ∧
      (some ErrNotFound : GoError) ≠ some ErrWordDoesNotExist ∧
      (some ErrWordExists : GoError) ≠ some ErrWordDoesNotExist) ∧
    (ErrNotFound.Error ≠ ErrWordExists.Error ∧
      ErrNotFound.Error ≠ ErrWordDoesNotExist.Error ∧
      ErrWordExists.Error ≠ ErrWordDoesNotExist.Error) ∧
    ((some ErrNotFound : GoError) ≠ none ∧ (some ErrWordExists : GoError) ≠ none ∧
      (some ErrWordDoesNotExist : GoError) ≠ none) := by
  decide

/-- C14: for every dictionary `d`, words `w` and `u` with `u` different from
`w`, and definition `define`: each of `Add(w, define)`, `Update(w, define)`
and `Delete(w)`, whether it returns no error, returns an error or panics,
leaves the entry of `u` untouched: `Search(u)` on the dictionary after the
call returns the same definition and error as on `d`. -/
theorem other_word_untouched (d : Dict) (w u define : String) (h : u ≠ w) :
    (∀ c, c = Call.add w define ∨ c = Call.update w define ∨ c = Call.delete w →
      ((d.call c).1.Search u).2 = (d.Search u).2) ∧
    (∀ d1 err, d.Add w define = .ok (d1, err) → (d1.Search u).2 = (d.Search u).2) ∧
    (∀ d1 err, d.Update w define = .ok (d1, err) → (d1.Search u).2 = (d.Search u).2) ∧
    ((d.Delete w).Search u).2 = (d.Search u).2 := by
  have key : ∀ c, c = Call.add w define ∨ c = Call.update w define ∨ c = Call.delete w →
      ((d.call c).1.Search u).2 = (d.Search u).2 :=
    fun c hc => Search_congr _ _ u (lookup_call_other d c w u define h hc)
  refine ⟨key, ?_, ?_, ?_⟩
  · intro d1 err h1
    have h2 := key (Call.add w define) (Or.inl rfl)
    simp only [Dict.call, h1] at h2
    exact h2
  · intro d1 err h1
    have h2 := key (Call.update w define) (Or.inr (Or.inl rfl))
    simp only [Dict.call, h1] at h2
    exact h2
  · exact key (Call.delete w) (Or.inr (Or.inr rfl))

theorem other_word_untouched_witness :
    (((Dict.mk [("test", "this is just a test")]).call (Call.add "other" "x")).1.Search
        "test").2 = ("this is just a test", none) ∧
    (((Dict.mk [("test", "this is just a test")]).call (Call.update "other" "x")).1.Search
        "test").2 = ("this is just a test", none) ∧
    (((Dict.mk [("test", "this is just a test")]).Delete "other").Search "test").2
      = ("this is just a test", none) :=
  have h := other_word_untouched (Dict.mk [("test", "this is just a test")]) "other" "test"
    "x" (by decide)
  ⟨h.1 _ (Or.inl rfl), h.1 _ (Or.inr (Or.inl rfl)), h.2.2.2⟩

/-- C15: for every dictionary `d`, word `w` that is not a key of `d` and
definition `define`: `Add(w, define)` followed by `Delete(w)` leaves a
dictionary equal to `d`. On an allocated dictionary `Add` returns no error
and `Delete` removes what it added; on the nil map `Add` panics before it
writes and the map stays nil. -/
theorem delete_undoes_add (d : Dict) (w define : String) (h : w ∉ d.keys) :
    (d.run [Call.add w define, Call.delete w]).1 = d ∧
    (d.call (Call.add w define)).1.Delete w = d ∧
    (∀ d1 err, d.Add w define = .ok (d1, err) → err = none ∧ d1.Delete w = d) ∧
    (d ≠ Dict.nil → ∃ d1, d.Add w define = .ok (d1, none) ∧ d1.Delete w = d) := by
  cases d with
  | nil =>
    refine ⟨?_, ?_, ?_, fun hd => absurd rfl hd⟩
    · simp [Dict.run, Dict.call, Add_nil]
    · simp [Dict.call, Add_nil, Dict.Delete, Dict.delete]
    · intro d1 err h1
      rw [Add_nil] at h1
      exact Except.noConfusion h1
  | mk es =>
    have hadd := Add_of_not_mem es w define h
    have hdel := Delete_assigned es w define h
    refine ⟨?_, ?_, ?_, fun _ => ⟨_, hadd, hdel⟩⟩
    · simp [Dict.run, Dict.call, hadd, hdel]
    · simp [Dict.call, hadd, hdel]
    · intro d1 err h1
      rw [hadd] at h1
      simp only [Except.ok.injEq, Prod.mk.injEq] at h1
      rw [← h1.1, ← h1.2]
      exact ⟨rfl, hdel⟩

theorem delete_undoes_add_witness :
    "unknown" ∉ (Dict.mk [("test", "this is just a test")]).keys ∧
    ((Dict.mk [("test", "this is just a test")]).run
      [Call.add "unknown" "x", Call.delete "unknown"]).1
      = Dict.mk [("test", "this is just a test")] ∧
    ∃ d1, (Dict.mk [("test", "this is just a test")]).Add "unknown" "x" = .ok (d1, none) ∧
      d1.Delete "unknown" = Dict.mk [("test", "this is just a test")] :=
  have h := delete_undoes_add (Dict.mk [("test", "this is just a test")]) "unknown" "x"
    (by decide)
  ⟨by decide, h.1, h.2.2.2 (by decide)⟩

end Maps

namespace GoInt

/-! ## Facts about wrap-around -/

theorem wrap_of_inRange (x : Int) (h : InRange x) : wrap x = x := by
  unfold InRange at h
  unfold wrap
  omega

theorem inRange_wrap (x : Int) : InRange (wrap x) := by
  unfold InRange wrap
  omega

theorem wrap_wrap (x : Int) : wrap (wrap x) = wrap x :=
  wrap_of_inRange _ (inRange_wrap x)

theorem wrap_add_left (a b : Int) : wrap (wrap a + b) = wrap (a + b) := by
  unfold wrap
  omega

theorem wrap_add_wrap (a b : Int) : wrap (wrap a + wrap b) = wrap (a + b) := by
  unfold wrap
  omega

theorem wrap_sub_cancel (a b : Int) : wrap (wrap (a + b) - a) = wrap b := by
  unfold wrap
  omega

theorem sub_inRange (b a : Int) (ha : 0 ≤ a) (hb : InRange b) (h : ¬ a > b) :
    InRange (b - a) ∧ 0 ≤ b - a := by
  unfold InRange at hb ⊢
  omega

theorem wrap_eq_self_iff (x : Int) : wrap x = x ↔ InRange x := by
  unfold InRange wrap
  omega

theorem wrap_sub_overflow (b a : Int) (hb : InRange b) (ha : InRange a) (h : ¬ a > b)
    (ho : ¬ InRange (b - a)) : wrap (b - a) = b - a - 2 ^ 64 := by
  unfold InRange at hb ha ho
  unfold wrap
  omega

end GoInt

namespace Pointer

/-! ## The wallet -/

theorem nonneg_apply (w : Wallet) (op : Op) (hb : 0 ≤ w.balance)
    (hr : GoInt.InRange w.balance) (ha : 0 ≤ op.amount)
    (ho : NoDepositOverflow w [op]) :
    0 ≤ (w.apply op).balance ∧ GoInt.InRange (w.apply op).balance := by
  cases op with
  | deposit a =>
    simp only [NoDepositOverflow, and_true] at ho
    simp only [Op.amount] at ha
    simp only [Wallet.apply, Wallet.Deposit, GoInt.add, GoInt.wrap_of_inRange _ ho]
    exact ⟨Int.add_nonneg hb ha, ho⟩
  | withdraw a =>
    simp only [Op.amount] at ha
    by_cases hgt : a > w.balance
    · simp only [Wallet.apply, Wallet.Withdraw, hgt, ↓reduceIte]
      exact ⟨hb, hr⟩
    · obtain ⟨hin, hnn⟩ := GoInt.sub_inRange w.balance a ha hr hgt
      simp only [Wallet.apply, Wallet.Withdraw, hgt, ↓reduceIte, GoInt.sub,
        GoInt.wrap_of_inRange _ hin]
      exact ⟨hnn, hin⟩

theorem nonneg_history (ops : List Op) : ∀ w : Wallet, 0 ≤ w.balance →
    GoInt.InRange w.balance → (∀ op ∈ ops, 0 ≤ op.amount) → NoDepositOverflow w ops →
    ∀ x ∈ w.history ops, 0 ≤ x.balance := by
  induction ops with
  | nil =>
    intro w _ _ _ _ x hx
    simp [Wallet.history] at hx
  | cons op ops ih =>
    intro w hb hr ha ho x hx
    have ha1 : 0 ≤ op.amount := ha op (List.mem_cons_self _ _)
    have ho1 : NoDepositOverflow w [op] ∧ NoDepositOverflow (w.apply op) ops := by
      cases op with
      | deposit a => exact ⟨⟨ho.1, trivial⟩, ho.2⟩
      | withdraw a => exact ⟨trivial, ho⟩
    obtain ⟨h1, h2⟩ := nonneg_apply w op hb hr ha1 ho1.1
    simp only [Wallet.history, List.mem_cons] at hx
    rcases hx with hx | hx
    · rw [hx]
      exact h1
    · exact ih (w.apply op) h1 h2 (fun o ho2 => ha o (List.mem_cons_of_mem _ ho2)) ho1.2 x hx

theorem length_history (ops : List Op) : ∀ w : Wallet, (w.history ops).length = ops.length := by
  induction ops with
  | nil => intro w; rfl
  | cons op ops ih => intro w; simp [Wallet.history, ih]

/-- C12 as stated fails: with balance `2^63 - 1` and amount `-1`, both values
of a Go `int`, the guard `amount > balance` does not fire, `Withdraw` returns
no error, and the balance becomes `-2^63`, which is not `b - a = 2^63`. -/
theorem withdraw_overflow_not_difference :
    GoInt.InRange (2 ^ 63 - 1) ∧ GoInt.InRange (-1) ∧
    ¬ ((-1 : Bitcoin) > (Wallet.mk (2 ^ 63 - 1)).balance) ∧
    (Wallet.mk (2 ^ 63 - 1)).Withdraw (-1) = (Wallet.mk (-2 ^ 63), none) ∧
    ((Wallet.mk (2 ^ 63 - 1)).Withdraw (-1)).1.Balance ≠ (2 ^ 63 - 1) - (-1) := by
  decide

/-- C12 amended: for every wallet `w` with balance `b` and every amount `a`:
if `a > b`, `Withdraw(a)` returns `ErrInsfficientFunds` and the balance stays
`b`; otherwise it returns no error and the balance becomes `b - a` whenever
`b - a` fits the machine integer (and only then), in particular for every
non-negative `a`; when `b - a` does not fit, the balance becomes
`b - a - 2^64`. `Withdraw` returns an error if and only if `a > b`. -/
theorem withdraw_guard (w : Wallet) (a : Bitcoin) :
    (a > w.balance →
      w.Withdraw a = (w, some ErrInsfficientFunds) ∧ (w.Withdraw a).1.Balance = w.balance) ∧
    (¬ a > w.balance →
      (w.Withdraw a).2 = none ∧
      ((w.Withdraw a).1.Balance = w.balance - a ↔ GoInt.InRange (w.balance - a)) ∧
      (0 ≤ a → GoInt.InRange w.balance → (w.Withdraw a).1.Balance = w.balance - a) ∧
      (GoInt.InRange w.balance → GoInt.InRange a → ¬ GoInt.InRange (w.balance - a) →
        (w.Withdraw a).1.Balance = w.balance - a - 2 ^ 64)) ∧
    ((w.Withdraw a).2 ≠ none ↔ a > w.balance) := by
  refine ⟨?_, ?_, ?_⟩
  · intro h
    simp [Wallet.Withdraw, h, Wallet.Balance]
  · intro h
    have hbal : (w.Withdraw a).1.Balance = GoInt.wrap (w.balance - a) := by
      simp [Wallet.Withdraw, h, Wallet.Balance, GoInt.sub]
    refine ⟨by simp [Wallet.Withdraw, h], ?_, ?_, ?_⟩
    · rw [hbal]
      exact GoInt.wrap_eq_self_iff _
    · intro ha hb
      rw [hbal]
      exact GoInt.wrap_of_inRange _ (GoInt.sub_inRange w.balance a ha hb h).1
    · intro hb ha ho
      rw [hbal]
      exact GoInt.wrap_sub_overflow w.balance a hb ha h ho
  · by_cases h : a > w.balance <;> simp [Wallet.Withdraw, h]

theorem withdraw_guard_witness :
    ((Wallet.mk 10).Withdraw 20 = (Wallet.mk 10, some ErrInsfficientFunds) ∧
      ((Wallet.mk 10).Withdraw 20).1.Balance = 10) ∧
    ((Wallet.mk 20).Withdraw 5).2 = none ∧
    ((Wallet.mk 20).Withdraw 5).1.Balance = 20 - 5 ∧
    ((Wallet.mk (2 ^ 63 - 1)).Withdraw (-1)).1.Balance = (2 ^ 63 - 1) - (-1) - 2 ^ 64 :=
  ⟨(withdraw_guard (Wallet.mk 10) 20).1 (by decide),
   ((withdraw_guard (Wallet.mk 20) 5).2.1 (by decide)).1,
   ((withdraw_guard (Wallet.mk 20) 5).2.1 (by decide)).2.2.1 (by decide) (by decide),
   ((withdraw_guard (Wallet.mk (2 ^ 63 - 1)) (-1)).2.1 (by decide)).2.2.2
     (by decide) (by decide) (by decide)⟩

/-- C16: for every finite sequence of `Deposit` and `Withdraw` calls whose
amounts are all non-negative, made on a wallet whose balance starts at 0, and
in which no `Deposit` overflows the machine integer, the balance is
non-negative after every call. -/
theorem balance_never_negative (ops : List Op) (ha : ∀ op ∈ ops, 0 ≤ op.amount)
    (ho : NoDepositOverflow (Wallet.mk 0) ops) :
    ((Wallet.mk 0).history ops).length = ops.length ∧
    ∀ x ∈ (Wallet.mk 0).history ops, 0 ≤ x.Balance :=
  ⟨length_history ops _,
   nonneg_history ops (Wallet.mk 0) (le_refl _) (by decide) ha ho⟩

theorem balance_never_negative_witness :
    (∀ op ∈ [Op.deposit 10, Op.withdraw 3, Op.withdraw 20, Op.withdraw 7], 0 ≤ op.amount) ∧
    NoDepositOverflow (Wallet.mk 0)
      [Op.deposit 10, Op.withdraw 3, Op.withdraw 20, Op.withdraw 7] ∧
    ((Wallet.mk 0).history
      [Op.deposit 10, Op.withdraw 3, Op.withdraw 20, Op.withdraw 7]).length = 4 ∧
    ∀ x ∈ (Wallet.mk 0).history
      [Op.deposit 10, Op.withdraw 3, Op.withdraw 20, Op.withdraw 7], 0 ≤ x.Balance :=
  ⟨by decide, by decide,
   balance_never_negative [Op.deposit 10, Op.withdraw 3, Op.withdraw 20, Op.withdraw 7]
     (by decide) (by decide)⟩

end Pointer

namespace Arrslice

/-! ## The sums -/

theorem foldl_add (numbers : List Int) : ∀ acc : Int, GoInt.wrap acc = acc →
    numbers.foldl (fun sum number => GoInt.add sum number) acc
      = GoInt.wrap (acc + numbers.sum) := by
  induction numbers with
  | nil =>
    intro acc h
    simp [h]
  | cons x xs ih =>
    intro acc _
    have h := ih (GoInt.add acc x) (GoInt.wrap_wrap _)
    rw [List.foldl_cons, h, GoInt.add, GoInt.wrap_add_left, List.sum_cons, Int.add_assoc]

theorem Sum_eq_wrap (numbers : List Int) : Sum numbers = GoInt.wrap numbers.sum := by
  have h := foldl_add numbers 0 (by decide)
  simpa [Sum] using h

theorem foldl_append_sums (f : List Int → Int) (ss : List (List Int)) : ∀ acc : List Int,
    ss.foldl (fun sums numbers => sums ++ [f numbers]) acc = acc ++ ss.map f := by
  induction ss with
  | nil =>
    intro acc
    simp
  | cons s ss ih =>
    intro acc
    rw [List.foldl_cons, ih]
    simp

theorem SumAll_eq_map (ss : List (List Int)) : SumAll ss = ss.map Sum := by
  simpa [SumAll] using foldl_append_sums Sum ss []

theorem body_eq (sums numbers : List Int) :
    SumAllTails.body sums numbers = .ok (sums ++ [tailEntry numbers]) := by
  cases numbers with
  | nil => rfl
  | cons x tail =>
    simp [SumAllTails.body, sliceFrom, tailEntry, bind, Except.bind, pure, Except.pure]

theorem foldlM_body (ss : List (List Int)) : ∀ acc : List Int,
    ss.foldlM SumAllTails.body acc = .ok (acc ++ ss.map tailEntry) := by
  induction ss with
  | nil =>
    intro acc
    simp [pure, Except.pure]
  | cons s ss ih =>
    intro acc
    rw [List.foldlM_cons, body_eq]
    simp only [bind, Except.bind]
    rw [ih]
    simp

theorem SumAllTails_eq_map (ss : List (List Int)) :
    SumAllTails ss = .ok (ss.map tailEntry) := by
  simpa [SumAllTails] using foldlM_body ss []

/-- C13: for every slice `numbers`, `Sum(numbers)` is the arithmetic sum of
its elements reduced to a Go `int` (modulo 2^64), so it is 0 for the empty
slice and the exact sum whenever that fits; and `Sum(xs ++ ys)` is
`Sum(xs) + Sum(ys)` in Go's `int` arithmetic for all slices `xs`, `ys`. -/
theorem sum_is_wrapped_total (numbers xs ys : List Int) :
    Sum numbers = GoInt.wrap numbers.sum ∧
    Sum [] = 0 ∧
    Sum (xs ++ ys) = GoInt.add (Sum xs) (Sum ys) ∧
    (GoInt.InRange numbers.sum → Sum numbers = numbers.sum) := by
  refine ⟨Sum_eq_wrap numbers, rfl, ?_, ?_⟩
  · rw [Sum_eq_wrap, Sum_eq_wrap, Sum_eq_wrap, GoInt.add, GoInt.wrap_add_wrap,
      List.sum_append]
  · intro h
    rw [Sum_eq_wrap, GoInt.wrap_of_inRange _ h]

theorem sum_is_wrapped_total_witness :
    Sum [1, 2, 3] = GoInt.wrap 6 ∧
    Sum ([1, 2] ++ [3]) = GoInt.add (Sum [1, 2]) (Sum [3]) ∧
    Sum [1, 2, 3] = 6 :=
  have h := sum_is_wrapped_total [1, 2, 3] [1, 2] [3]
  ⟨h.1, h.2.2.1, h.2.2.2 (by decide)⟩

/-- C17: for every list of slices `ss`, `SumAllTails` returns (the slice
expression `numbers[1:]` never panics) a slice as long as `ss` whose `i`-th
element is 0 when the `i`-th slice is empty, and otherwise the sum of all its
elements except the first, which is `Sum` of the slice minus its first element
in Go's `int` arithmetic. -/
theorem sumAllTails_elements (ss : List (List Int)) :
    ∃ sums, SumAllTails ss = .ok sums ∧ sums.length = ss.length ∧
      ∀ (i : Nat) (s : List Int), ss[i]? = some s →
        (s = [] → sums[i]? = some 0) ∧
        (∀ x tail, s = x :: tail →
          sliceFrom s 1 = .ok tail ∧ sums[i]? = some (Sum tail) ∧
          Sum tail = GoInt.sub (Sum s) x) := by
  refine ⟨ss.map tailEntry, SumAllTails_eq_map ss, by simp, ?_⟩
  intro i s hs
  have hi : (ss.map tailEntry)[i]? = some (tailEntry s) := by
    rw [List.getElem?_map, hs]
    rfl
  refine ⟨?_, ?_⟩
  · intro h
    subst h
    exact hi
  · intro x tail h
    subst h
    refine ⟨by simp [sliceFrom], hi, ?_⟩
    rw [Sum_eq_wrap, Sum_eq_wrap, GoInt.sub, List.sum_cons, GoInt.wrap_sub_cancel]

theorem sumAllTails_elements_witness :
    SumAllTails [[1, 2, 3], [], [0, 9]] = .ok [5, 0, 9] ∧
    ∃ sums, SumAllTails [[1, 2, 3], [], [0, 9]] = .ok sums ∧ sums.length = 3 ∧
      sums[1]? = some 0 ∧ sums[2]? = some (Sum [9]) :=
  have h := sumAllTails_elements [[1, 2, 3], [], [0, 9]]
  ⟨by decide, h.elim fun sums hs =>
    ⟨sums, hs.1, hs.2.1, (hs.2.2 1 [] (by decide)).1 rfl,
      ((hs.2.2 2 [0, 9] (by decide)).2 0 [9] rfl).2.1⟩⟩

/-- C18: for every list of slices `ss`, the empty list included, `SumAll`
returns a slice of exactly the length of `ss` whose `i`-th element is `Sum` of
the `i`-th slice. -/
theorem sumAll_elements (ss : List (List Int)) :
    (SumAll ss).length = ss.length ∧
    SumAll [] = [] ∧
    ∀ (i : Nat) (s : List Int), ss[i]? = some s → (SumAll ss)[i]? = some (Sum s) := by
  refine ⟨by simp [SumAll_eq_map], rfl, ?_⟩
  intro i s hs
  rw [SumAll_eq_map, List.getElem?_map, hs]
  rfl

theorem sumAll_elements_witness :
    (SumAll [[1, 2], [0, 9]]).length = 2 ∧
    (SumAll [[1, 2], [0, 9]])[0]? = some (Sum [1, 2]) ∧
    (SumAll [[1, 2], [0, 9]])[1]? = some (Sum [0, 9]) :=
  have h := sumAll_elements [[1, 2], [0, 9]]
  ⟨h.1, h.2.2 0 [1, 2] (by decide), h.2.2 1 [0, 9] (by decide)⟩

end Arrslice
